import Mathlib

/-!
# Comic-Reader model-layer verification

A shallow embedding of the classification, indexing and persistence logic of
`src/models/comic_model.py` (the Comic-Reader repository), together with
theorems settling the frozen claims about that code.

Modelling conventions:
* A filesystem is a finite list of absolute paths with their kinds
  (`FS`); a path is its list of components (the leading separator of an
  absolute path is implicit).  `iterdir` order is the order of the entries
  in the list (the order returned by the OS is unspecified anyway).
* Python `float` values (the sensitivity threshold, timestamps) are
  modelled as rationals `ℚ`.
* Python dictionaries are insertion-ordered association lists with
  dict-assignment semantics (`aset` updates in place, else appends).
* `OSError` handling: the embedded functions model the error-free runs;
  `iterdir()` on a non-directory raises `NotADirectoryError` (a subclass
  of `OSError`), which the source catches, so those branches are embedded
  explicitly.
-/

namespace ComicReader

/-- Kind of a filesystem entry. -/
inductive EntryKind : Type
  | file : EntryKind
  | dir : EntryKind
deriving DecidableEq, Repr

/-- A filesystem: the list of all existing absolute paths (component lists)
with their kinds.  Children are listed in `iterdir` order. -/
abbrev FS : Type := List (List String × EntryKind)

/-- First entry registered at a path, if any (the path exists iff this is
`some`). -/
def FS.lookup (fs : FS) (p : List String) : Option EntryKind :=
  match fs with
  | [] => none
  | (q, k) :: rest => if q = p then some k else FS.lookup rest p

/-- `Path.exists()`. -/
def FS.existsB (fs : FS) (p : List String) : Bool :=
  (fs.lookup p).isSome

/-- `Path.is_dir()`. -/
def FS.isDirB (fs : FS) (p : List String) : Bool :=
  fs.lookup p = some EntryKind.dir

/-- `Path.is_file()`. -/
def FS.isFileB (fs : FS) (p : List String) : Bool :=
  fs.lookup p = some EntryKind.file

/-- `stripParent p q = some n` exactly when `q = p ++ [n]`, i.e. `q` is a
direct child of directory `p` named `n`. -/
def stripParent : List String → List String → Option String
  | [], [n] => some n
  | a :: as, b :: bs => if b = a then stripParent as bs else none
  | _, _ => none

/-- The names of the children of `p`, in filesystem order (`Path.iterdir`
yields `p / name` for each such name). -/
def FS.childNames (fs : FS) (p : List String) : List String :=
  fs.filterMap (fun e => stripParent p e.1)

/-- `Path.name`: last component (empty for the root). -/
def lastName (p : List String) : String :=
  (p.getLast?).getD ""

-- All character-level manipulation is done structurally over `List Char`
-- (core's byte-position-based `String` primitives are not kernel-reducible).

-- Python `str.rfind('.')` over the characters of a name, as the index of
-- the last dot, if any.
def lastDotIdx (cs : List Char) : Option Nat :=
  match (cs.reverse).findIdx? (fun c => c = '.') with
  | some j => some (cs.length - 1 - j)
  | none => none

/-- `PurePath.suffix` of a name: `name[i:]` for the last dot index `i` when
`0 < i < len(name) - 1`, otherwise the empty string. -/
def nameSuffix (name : String) : String :=
  let cs := name.data
  match lastDotIdx cs with
  | some i => if 0 < i ∧ i < cs.length - 1 then String.mk (cs.drop i) else ""
  | none => ""

/-- `PurePath.stem` of a name: `name[:i]` under the same condition,
otherwise the whole name. -/
def nameStem (name : String) : String :=
  let cs := name.data
  match lastDotIdx cs with
  | some i => if 0 < i ∧ i < cs.length - 1 then String.mk (cs.take i) else name
  | none => name

/-- ASCII lower-casing of one character (`str.lower()`; every extension
compared against is ASCII). -/
def lowerChar (c : Char) : Char :=
  if 65 ≤ c.toNat ∧ c.toNat ≤ 90 then Char.ofNat (c.toNat + 32) else c

/-- `path.suffix.lower()`. -/
def suffixLower (name : String) : String :=
  String.mk ((nameSuffix name).data.map lowerChar)

/-- `SUPPORTED_IMAGE_EXTS` from `utils/config.py`. -/
def SUPPORTED_IMAGE_EXTS : List String :=
  [".jpg", ".jpeg", ".png", ".webp", ".bmp", ".avif"]

/-- `SUPPORTED_CHAPTER_EXTS = SUPPORTED_DOC_EXTS | {".cbz", ".epub"}` where
`SUPPORTED_DOC_EXTS = {".pdf"}`. -/
def SUPPORTED_CHAPTER_EXTS : List String :=
  [".pdf", ".cbz", ".epub"]

/-- `HIDDEN_PREFIX = "."`; the visibility test `name.startswith(HIDDEN_PREFIX)`
(a one-character prefix: true iff the first character is a dot). -/
def isHidden (name : String) : Bool :=
  match name.data with
  | [] => false
  | c :: _ => c = '.'

/-- `MIN_CHAPTER_IMAGES = 1`. -/
def MIN_CHAPTER_IMAGES : Nat := 1

/-- `IMPURE_FOLDER_THRESHOLD = 0.8` (as the exact rational 4/5; written with
`mkRat` so that the kernel can evaluate comparisons against it). -/
def IMPURE_FOLDER_THRESHOLD : ℚ := mkRat 4 5

/-- The per-child loop of `_is_chapter_folder`, over the `iterdir` listing:
returns `none` when some visible child triggers an early `return False`
(a subdirectory, or a chapter-extension name), otherwise
`some (image_count, other_file_count)`. -/
def chapterScan (fs : FS) (p : List String) : List String → Option (Nat × Nat)
  | [] => some (0, 0)
  | n :: rest =>
    if isHidden n then chapterScan fs p rest
    else if fs.isDirB (p ++ [n]) then none
    else if SUPPORTED_CHAPTER_EXTS.contains (suffixLower n) then none
    else if fs.isFileB (p ++ [n]) then
      match chapterScan fs p rest with
      | none => none
      | some (i, o) =>
        if SUPPORTED_IMAGE_EXTS.contains (suffixLower n) then some (i + 1, o)
        else some (i, o + 1)
    else chapterScan fs p rest

/-- `_is_chapter_folder(path, impure_threshold)`: a directory of images with
no subfolders and no standalone chapter files, pure enough for the
threshold.  (`iterdir` on a missing path raises `OSError`, caught by the
source's handler, hence the non-directory branch returns `False`.) -/
def isChapterFolder (fs : FS) (p : List String) (impure_threshold : ℚ) : Bool :=
  if fs.isDirB p then
    let children := fs.childNames p
    -- `if not any(not item.name.startswith(HIDDEN_PREFIX) for item in children)`
    if children.all (fun n => isHidden n) then false
    else
      match chapterScan fs p children with
      | none => false
      | some (i, o) =>
        if i < MIN_CHAPTER_IMAGES then false
        -- `(image_count / total_files) >= impure_threshold`; `mkRat i (i + o)`
        -- is exactly the rational `i / (i + o)` (see `mkRat_count_eq_div`).
        else decide (impure_threshold ≤ mkRat i (i + o))
  else false

/-- The ratio test in `_is_chapter_folder` written with `mkRat` is the exact
rational division `image_count / (image_count + other_file_count)`. -/
theorem mkRat_count_eq_div (i o : Nat) :
    (mkRat i (i + o) : ℚ) = (i : ℚ) / ((i : ℚ) + (o : ℚ)) := by
  rw [Rat.mkRat_eq_div]
  push_cast
  rfl

/-- `is_chapter(path, impure_threshold)`: chapter-extension file, or a
qualifying image folder. -/
def isChapter (fs : FS) (p : List String) (impure_threshold : ℚ) : Bool :=
  if SUPPORTED_CHAPTER_EXTS.contains (suffixLower (lastName p)) then true
  else isChapterFolder fs p impure_threshold

/-- Does a directory have a visible (non-hidden) child?  This is the
source's effective-emptiness probe
`any(not item.name.startswith(HIDDEN_PREFIX) for item in child.iterdir())`. -/
def hasVisibleChild (fs : FS) (p : List String) : Bool :=
  (fs.childNames p).any (fun n => ¬ isHidden n)

/-- `_analyze_directory_contents(path, impure_threshold)`: bucket each
visible child into direct chapters or navigable (non-empty, non-chapter)
subfolders.  `iterdir` on a non-directory raises `OSError`, which the
source catches and turns into `([], [])`. -/
def analyzeDirectoryContents (fs : FS) (p : List String) (impure_threshold : ℚ) :
    List (List String) × List (List String) :=
  if fs.isDirB p then
    (fs.childNames p).foldr
      (fun n acc =>
        if isHidden n then acc
        else
          let child := p ++ [n]
          if isChapter fs child impure_threshold then (child :: acc.1, acc.2)
          else if fs.isDirB child then
            if hasVisibleChild fs child then (acc.1, child :: acc.2) else acc
          else acc)
      ([], [])
  else ([], [])

/-! ## Claim C1: characterisation of `_is_chapter_folder` -/

/-- The visible (non-hidden) children of a directory. -/
def visibleChildNames (fs : FS) (p : List String) : List String :=
  (fs.childNames p).filter (fun n => ¬ isHidden n)

/-- Count of visible image-extension files among the children of `p`. -/
def imageCount (fs : FS) (p : List String) : Nat :=
  ((fs.childNames p).filter (fun n => ¬ isHidden n && (fs.isFileB (p ++ [n]) &&
    SUPPORTED_IMAGE_EXTS.contains (suffixLower n)))).length

/-- Count of the remaining visible files among the children of `p`. -/
def otherCount (fs : FS) (p : List String) : Nat :=
  ((fs.childNames p).filter (fun n => ¬ isHidden n && (fs.isFileB (p ++ [n]) &&
    ¬ SUPPORTED_IMAGE_EXTS.contains (suffixLower n)))).length

/-- The readable-unit condition for a directory exactly as the claim states
it: non-empty visible children, no visible subdirectory, no visible file
with a readable-unit extension, at least one visible image file, and image
ratio at least the sensitivity. -/
def chapterFolderSpec (fs : FS) (p : List String) (sensitivity : ℚ) : Prop :=
  visibleChildNames fs p ≠ [] ∧
  (∀ n ∈ visibleChildNames fs p, ¬ fs.isDirB (p ++ [n]) = true) ∧
  (∀ n ∈ visibleChildNames fs p,
    ¬ (fs.isFileB (p ++ [n]) = true ∧ suffixLower n ∈ SUPPORTED_CHAPTER_EXTS)) ∧
  1 ≤ imageCount fs p ∧
  sensitivity ≤ (imageCount fs p : ℚ) /
    ((imageCount fs p : ℚ) + (otherCount fs p : ℚ))

theorem stripParent_eq_some {p q : List String} {n : String} :
    stripParent p q = some n ↔ q = p ++ [n] := by
  induction p generalizing q with
  | nil =>
    cases q with
    | nil => simp [stripParent]
    | cons b bs =>
      cases bs with
      | nil => simp [stripParent]
      | cons c cs => simp [stripParent]
  | cons a as ih =>
    cases q with
    | nil => simp [stripParent]
    | cons b bs =>
      simp only [stripParent]
      by_cases hb : b = a
      · subst hb
        simp [ih]
      · simp [hb, Ne.symm hb]

theorem mem_childNames {fs : FS} {p : List String} {n : String} :
    n ∈ fs.childNames p ↔ ∃ k, (p ++ [n], k) ∈ fs := by
  unfold FS.childNames
  rw [List.mem_filterMap]
  constructor
  · rintro ⟨⟨q, k⟩, hmem, hstrip⟩
    rw [stripParent_eq_some] at hstrip
    subst hstrip
    exact ⟨k, hmem⟩
  · rintro ⟨k, hmem⟩
    exact ⟨(p ++ [n], k), hmem, stripParent_eq_some.mpr rfl⟩

theorem FS.lookup_isSome_iff {fs : FS} {q : List String} :
    (fs.lookup q).isSome ↔ ∃ k, (q, k) ∈ fs := by
  induction fs with
  | nil => simp [FS.lookup]
  | cons e rest ih =>
    obtain ⟨r, k⟩ := e
    simp only [FS.lookup]
    by_cases h : r = q
    · subst h
      simp
    · simp only [if_neg h, ih, List.mem_cons]
      constructor
      · rintro ⟨k', hk'⟩
        exact ⟨k', Or.inr hk'⟩
      · rintro ⟨k', hk' | hk'⟩
        · exact absurd (congrArg Prod.fst hk'.symm) h
        · exact ⟨k', hk'⟩

/-- Every existing path is a file or a directory. -/
theorem file_or_dir_of_mem_childNames {fs : FS} {p : List String} {n : String}
    (h : n ∈ fs.childNames p) :
    fs.isFileB (p ++ [n]) = true ∨ fs.isDirB (p ++ [n]) = true := by
  obtain ⟨k, hk⟩ := mem_childNames.mp h
  have hsome : (fs.lookup (p ++ [n])).isSome := FS.lookup_isSome_iff.mpr ⟨k, hk⟩
  unfold FS.isFileB FS.isDirB
  cases hlk : fs.lookup (p ++ [n]) with
  | none => rw [hlk] at hsome; simp at hsome
  | some k' =>
    cases k' with
    | file => exact Or.inl (by simp)
    | dir => exact Or.inr (by simp)

/-- A path is never both a file and a directory. -/
theorem not_file_and_dir {fs : FS} {q : List String} :
    ¬ (fs.isFileB q = true ∧ fs.isDirB q = true) := by
  rintro ⟨hf, hd⟩
  unfold FS.isFileB at hf
  unfold FS.isDirB at hd
  simp only [decide_eq_true_eq] at hf hd
  rw [hf] at hd
  exact EntryKind.noConfusion (Option.some.injEq _ _ ▸ hd)

/-- The per-child loop returns `none` exactly when some visible child is a
subdirectory or carries a readable-unit extension. -/
theorem chapterScan_eq_none_iff {fs : FS} {p : List String} {l : List String} :
    chapterScan fs p l = none ↔
      ∃ n ∈ l, isHidden n = false ∧
        (fs.isDirB (p ++ [n]) = true ∨
         SUPPORTED_CHAPTER_EXTS.contains (suffixLower n) = true) := by
  induction l with
  | nil => simp [chapterScan]
  | cons n rest ih =>
    simp only [chapterScan]
    by_cases hh : isHidden n
    · rw [if_pos hh, ih]
      constructor
      · rintro ⟨m, hm, hvis, hbad⟩
        exact ⟨m, List.mem_cons_of_mem _ hm, hvis, hbad⟩
      · rintro ⟨m, hm, hvis, hbad⟩
        rcases List.mem_cons.mp hm with heq | hm'
        · subst heq; rw [hh] at hvis; cases hvis
        · exact ⟨m, hm', hvis, hbad⟩
    · rw [if_neg hh]
      replace hh : isHidden n = false := by
        cases h : isHidden n
        · rfl
        · exact absurd h hh
      by_cases hd : fs.isDirB (p ++ [n]) = true
      · rw [if_pos hd]
        simp only [true_iff]
        exact ⟨n, List.mem_cons_self _ _, hh, Or.inl hd⟩
      · rw [if_neg hd]
        by_cases he : SUPPORTED_CHAPTER_EXTS.contains (suffixLower n) = true
        · rw [if_pos he]
          simp only [true_iff]
          exact ⟨n, List.mem_cons_self _ _, hh, Or.inr he⟩
        · rw [if_neg he]
          have hrest :
              (∃ m ∈ rest, isHidden m = false ∧
                (fs.isDirB (p ++ [m]) = true ∨
                 SUPPORTED_CHAPTER_EXTS.contains (suffixLower m) = true)) ↔
              (∃ m ∈ n :: rest, isHidden m = false ∧
                (fs.isDirB (p ++ [m]) = true ∨
                 SUPPORTED_CHAPTER_EXTS.contains (suffixLower m) = true)) := by
            constructor
            · rintro ⟨m, hm, hvis, hbad⟩
              exact ⟨m, List.mem_cons_of_mem _ hm, hvis, hbad⟩
            · rintro ⟨m, hm, hvis, hbad⟩
              rcases List.mem_cons.mp hm with heq | hm'
              · subst heq
                rcases hbad with hbad | hbad
                · exact absurd hbad hd
                · exact absurd hbad he
              · exact ⟨m, hm', hvis, hbad⟩
          by_cases hf : fs.isFileB (p ++ [n]) = true
          · rw [if_pos hf]
            cases hscan : chapterScan fs p rest with
            | none =>
              simp only [true_iff]
              exact hrest.mp (ih.mp hscan)
            | some io =>
              obtain ⟨i, o⟩ := io
              constructor
              · intro habs
                by_cases himg : suffixLower n ∈ SUPPORTED_IMAGE_EXTS <;>
                  simp [himg] at habs
              · intro hex
                have := ih.mpr (hrest.mpr hex)
                rw [hscan] at this
                cases this
          · rw [if_neg hf, ih]
            exact hrest

/-- When no visible child is a subdirectory or a chapter-extension entry,
the loop tallies exactly the visible image files and the remaining visible
files. -/
theorem chapterScan_eq_some {fs : FS} {p : List String} {l : List String}
    (h : ∀ n ∈ l, isHidden n = false →
      fs.isDirB (p ++ [n]) = false ∧
      SUPPORTED_CHAPTER_EXTS.contains (suffixLower n) = false) :
    chapterScan fs p l = some
      ((l.filter (fun n => ¬ isHidden n && (fs.isFileB (p ++ [n]) &&
          SUPPORTED_IMAGE_EXTS.contains (suffixLower n)))).length,
       (l.filter (fun n => ¬ isHidden n && (fs.isFileB (p ++ [n]) &&
          ¬ SUPPORTED_IMAGE_EXTS.contains (suffixLower n)))).length) := by
  induction l with
  | nil => simp [chapterScan]
  | cons n rest ih =>
    have hn := h n (List.mem_cons_self _ _)
    have hrest : ∀ m ∈ rest, isHidden m = false →
        fs.isDirB (p ++ [m]) = false ∧
        SUPPORTED_CHAPTER_EXTS.contains (suffixLower m) = false :=
      fun m hm => h m (List.mem_cons_of_mem _ hm)
    simp only [chapterScan]
    by_cases hh : isHidden n
    · rw [if_pos hh, ih hrest]
      simp [hh]
    · have hh' : isHidden n = false := by
        cases hhh : isHidden n
        · rfl
        · exact absurd hhh hh
      obtain ⟨hd, he⟩ := hn hh'
      rw [if_neg hh, if_neg (by rw [hd]; exact Bool.false_ne_true),
        if_neg (by rw [he]; exact Bool.false_ne_true), ih hrest]
      by_cases hf : fs.isFileB (p ++ [n]) = true
      · rw [if_pos hf]
        by_cases himg : suffixLower n ∈ SUPPORTED_IMAGE_EXTS <;>
          simp [List.filter_cons, hh', hf, himg]
      · have hf' : fs.isFileB (p ++ [n]) = false := by
          cases hff : fs.isFileB (p ++ [n])
          · rfl
          · exact absurd hff hf
        rw [if_neg hf]
        simp [hh', hf']

theorem contains_eq_mem {l : List String} {s : String} :
    l.contains s = true ↔ s ∈ l := by
  simp

theorem mem_visibleChildNames {fs : FS} {p : List String} {n : String} :
    n ∈ visibleChildNames fs p ↔ n ∈ fs.childNames p ∧ isHidden n = false := by
  unfold visibleChildNames
  rw [List.mem_filter]
  simp

/-- Claim C1: for every directory path and sensitivity, `_is_chapter_folder`
accepts the directory if and only if its visible children are non-empty,
none is a subdirectory, none is a file with a readable-unit extension, the
visible image-file count is at least 1, and the image ratio over visible
files is at least the sensitivity; in particular a directory with no
visible children is never a chapter, and one with a visible subdirectory
is never a chapter at any sensitivity. -/
theorem chapter_folder_rule (fs : FS) (p : List String) (τ : ℚ)
    (hdir : fs.isDirB p = true) :
    (isChapterFolder fs p τ = true ↔ chapterFolderSpec fs p τ) ∧
    (visibleChildNames fs p = [] → isChapterFolder fs p τ = false) ∧
    (∀ n ∈ visibleChildNames fs p, fs.isDirB (p ++ [n]) = true →
      isChapterFolder fs p τ = false) := by
  have hall : ((fs.childNames p).all (fun n => isHidden n) = true) ↔
      visibleChildNames fs p = [] := by
    unfold visibleChildNames
    rw [List.all_eq_true, List.filter_eq_nil_iff]
    simp
  have main : isChapterFolder fs p τ = true ↔ chapterFolderSpec fs p τ := by
    unfold isChapterFolder
    rw [if_pos hdir]
    by_cases hvis : visibleChildNames fs p = []
    · rw [if_pos (hall.mpr hvis)]
      unfold chapterFolderSpec
      simp [hvis]
    · rw [if_neg (fun h => hvis (hall.mp h))]
      by_cases hbad : ∃ n ∈ fs.childNames p, isHidden n = false ∧
          (fs.isDirB (p ++ [n]) = true ∨
           SUPPORTED_CHAPTER_EXTS.contains (suffixLower n) = true)
      · rw [chapterScan_eq_none_iff.mpr hbad]
        obtain ⟨n, hn, hnh, hb⟩ := hbad
        have hnvis : n ∈ visibleChildNames fs p :=
          mem_visibleChildNames.mpr ⟨hn, hnh⟩
        refine iff_of_false (by simp) ?_
        unfold chapterFolderSpec
        rintro ⟨-, hnodir, hnoext, -, -⟩
        rcases hb with hb | hb
        · exact hnodir n hnvis hb
        · rcases file_or_dir_of_mem_childNames hn with hf | hd
          · exact hnoext n hnvis ⟨hf, contains_eq_mem.mp hb⟩
          · exact hnodir n hnvis hd
      · have hgood : ∀ n ∈ fs.childNames p, isHidden n = false →
            fs.isDirB (p ++ [n]) = false ∧
            SUPPORTED_CHAPTER_EXTS.contains (suffixLower n) = false := by
          intro n hn hnh
          constructor
          · cases hd : fs.isDirB (p ++ [n])
            · rfl
            · exact absurd ⟨n, hn, hnh, Or.inl hd⟩ hbad
          · cases he : SUPPORTED_CHAPTER_EXTS.contains (suffixLower n)
            · rfl
            · exact absurd ⟨n, hn, hnh, Or.inr he⟩ hbad
        rw [chapterScan_eq_some hgood]
        have himg : ∀ n ∈ visibleChildNames fs p, ¬ fs.isDirB (p ++ [n]) = true := by
          intro n hn
          obtain ⟨hn', hnh⟩ := mem_visibleChildNames.mp hn
          rw [(hgood n hn' hnh).1]
          exact Bool.false_ne_true
        have hext : ∀ n ∈ visibleChildNames fs p,
            ¬ (fs.isFileB (p ++ [n]) = true ∧
               suffixLower n ∈ SUPPORTED_CHAPTER_EXTS) := by
          rintro n hn ⟨-, hmem⟩
          obtain ⟨hn', hnh⟩ := mem_visibleChildNames.mp hn
          have hcontra := contains_eq_mem.mpr hmem
          rw [(hgood n hn' hnh).2] at hcontra
          cases hcontra
        show (if imageCount fs p < MIN_CHAPTER_IMAGES then false
            else decide (τ ≤ mkRat (imageCount fs p)
              (imageCount fs p + otherCount fs p))) = true ↔ _
        unfold chapterFolderSpec
        constructor
        · intro hres
          by_cases hlt : imageCount fs p < MIN_CHAPTER_IMAGES
          · rw [if_pos hlt] at hres; cases hres
          · rw [if_neg hlt] at hres
            have hratio := of_decide_eq_true hres
            rw [mkRat_count_eq_div] at hratio
            refine ⟨hvis, himg, hext, ?_, hratio⟩
            unfold MIN_CHAPTER_IMAGES at hlt
            omega
        · rintro ⟨-, -, -, hcnt, hratio⟩
          have hlt : ¬ imageCount fs p < MIN_CHAPTER_IMAGES := by
            unfold MIN_CHAPTER_IMAGES
            omega
          rw [if_neg hlt, ← mkRat_count_eq_div] at *
          exact decide_eq_true hratio
  refine ⟨main, ?_, ?_⟩
  · intro hvis
    unfold isChapterFolder
    rw [if_pos hdir, if_pos (hall.mpr hvis)]
  · intro n hn hd
    cases hres : isChapterFolder fs p τ
    · rfl
    · exact absurd hd ((main.mp hres).2.1 n hn)

/-- A small concrete tree used to witness `chapter_folder_rule`: a root with
one folder of two images. -/
def exC1fs : FS :=
  [ (["r"], .dir), (["r", "ch"], .dir),
    (["r", "ch", "p1.jpg"], .file), (["r", "ch", "p2.png"], .file) ]

theorem chapter_folder_rule_witness :
    exC1fs.isDirB ["r", "ch"] = true ∧
    ((isChapterFolder exC1fs ["r", "ch"] IMPURE_FOLDER_THRESHOLD = true ↔
        chapterFolderSpec exC1fs ["r", "ch"] IMPURE_FOLDER_THRESHOLD) ∧
     (visibleChildNames exC1fs ["r", "ch"] = [] →
        isChapterFolder exC1fs ["r", "ch"] IMPURE_FOLDER_THRESHOLD = false) ∧
     (∀ n ∈ visibleChildNames exC1fs ["r", "ch"],
        exC1fs.isDirB (["r", "ch"] ++ [n]) = true →
        isChapterFolder exC1fs ["r", "ch"] IMPURE_FOLDER_THRESHOLD = false)) :=
  ⟨by decide,
   chapter_folder_rule exC1fs ["r", "ch"] IMPURE_FOLDER_THRESHOLD (by decide)⟩

/-! ## The library model (`ComicLibrary`, `ComicState`, `ChapterState`) -/

/-- Python-dict lookup over an insertion-ordered association list. -/
def alookup {β : Type} : List (String × β) → String → Option β
  | [], _ => none
  | (k, v) :: m, key => if k = key then some v else alookup m key

/-- Python-dict assignment: update in place if the key exists, otherwise
append at the end. -/
def aset {β : Type} : List (String × β) → String → β → List (String × β)
  | [], key, v => [(key, v)]
  | (k, w) :: m, key, v =>
    if k = key then (key, v) :: m else (k, w) :: aset m key v

/-- `ChapterState` (timestamps are modelled as rationals). -/
structure ChapterState where
  path : List String
  read : Bool := false
  bookmarked : Bool := false
  last_opened : ℚ := 0
deriving DecidableEq, Repr

/-- `ChapterState.display_name`: directory name, or file name without the
extension for files. -/
def ChapterState.display_name (fs : FS) (ch : ChapterState) : String :=
  if fs.isDirB ch.path then lastName ch.path else nameStem (lastName ch.path)

/-- `ComicState` (metadata is modelled as a string-to-string mapping). -/
structure ComicState where
  path : List String
  metadata : List (String × String) := []
  chapters : List (String × ChapterState) := []
  last_read_chapter : Option String := none
  last_read_page : Int := 0
  favorite : Bool := false
deriving DecidableEq, Repr

/-- `ComicLibrary`: the roots, the key-indexed comics map and the current
classification sensitivity.  (The state-file path lives outside the model.) -/
structure ComicLibrary where
  roots : List (List String)
  comics : List (String × ComicState) := []
  impure_threshold : ℚ := IMPURE_FOLDER_THRESHOLD
deriving DecidableEq, Repr

/-- `Path.parents` as a list of proper prefixes (`/a/b` has parents
`/a` and `/`). -/
def parentsOf (p : List String) : List (List String) :=
  (List.range p.length).map (fun i => p.take i)

/-- `path.relative_to(root).as_posix()` for a `root` that is a prefix of
`path`: the relative components joined with `/`, or `"."` when the two
paths are equal (`Path('.').as_posix() == '.'`). -/
def relativeToPosix (p r : List String) : String :=
  let rel := p.drop r.length
  if rel.isEmpty then "." else String.intercalate "/" rel

/-- `ComicLibrary._get_comic_key_from_path`: first root that equals the path
or appears among its parents wins; outside every root the result is `None`.
(The source's `try/except ValueError` around `relative_to` can never fire
because the chosen root is a prefix of the path.) -/
def getComicKeyFromPath (roots : List (List String)) (p : List String) :
    Option String :=
  match roots with
  | [] => none
  | r :: rs =>
    if r = p ∨ r ∈ parentsOf p then some (relativeToPosix p r)
    else getComicKeyFromPath rs p

-- `str.split('/')` written structurally over the character list.
def splitSlashAux : List Char → List Char → List String
  | [], acc => [String.mk acc.reverse]
  | c :: cs, acc =>
    if c = '/' then String.mk acc.reverse :: splitSlashAux cs []
    else splitSlashAux cs (c :: acc)

/-- Key components of a relative key string: pathlib's parser splits on the
separator and drops empty components and `'.'` components when joining
`root / key`. -/
def keyComponents (key : String) : List String :=
  (splitSlashAux key.data []).filter (fun c => c ≠ "" && c ≠ ".")

/-- `ComicLibrary._get_path_from_comic_key`: first root under which the key
exists on disk. -/
def getPathFromComicKey (fs : FS) (roots : List (List String)) (key : String) :
    Option (List String) :=
  match roots with
  | [] => none
  | r :: rs =>
    if fs.existsB (r ++ keyComponents key) then some (r ++ keyComponents key)
    else getPathFromComicKey fs rs key

/-- The dict-building loop `for chapter_path in chapters:
`cs.chapters[chapter_path.name] = ChapterState(path=chapter_path)`. -/
def buildChapters (paths : List (List String)) : List (String × ChapterState) :=
  paths.foldl (fun m p => aset m (lastName p)
    { path := p, read := false, bookmarked := false, last_opened := 0 }) []

/-- Python set equality of two name collections
(`{c.name for c in current} != set(comic.chapters.keys())`). -/
def listSetEq (a b : List String) : Bool :=
  a.all (fun x => b.contains x) && b.all (fun x => a.contains x)

/-- `ComicLibrary.get_comic(rel_key)`.  The source mutates `self`; the model
threads the library state and returns the pair (result, new state).

* cached key: re-analyze the record's path; when the chapter name set
  changed on disk, drop and rebuild the chapter map (fresh zero state);
  the record is returned either way;
* uncached key: resolve via the key space, analyze, fall back to a
  single-file chapter when the path itself is a readable unit, and
  register the record only when its chapter map is non-empty. -/
def ComicLibrary.get_comic (fs : FS) (L : ComicLibrary) (rel_key : String) :
    Option ComicState × ComicLibrary :=
  match alookup L.comics rel_key with
  | some comic =>
    let current := (analyzeDirectoryContents fs comic.path L.impure_threshold).1
    if listSetEq (current.map lastName) (comic.chapters.map Prod.fst) then
      (some comic, L)
    else
      let comic' := { comic with chapters := buildChapters current }
      (some comic', { L with comics := aset L.comics rel_key comic' })
  | none =>
    match getPathFromComicKey fs L.roots rel_key with
    | none => (none, L)
    | some abs_path =>
      let chapters0 := (analyzeDirectoryContents fs abs_path L.impure_threshold).1
      -- `if not chapters and is_chapter(abs_path, ...)`: lone readable file.
      let chapters :=
        if chapters0.isEmpty && isChapter fs abs_path L.impure_threshold then
          [abs_path]
        else chapters0
      let cs : ComicState := { path := abs_path, chapters := buildChapters chapters }
      if cs.chapters.isEmpty then (none, L)
      else (some cs, { L with comics := aset L.comics rel_key cs })

/-- `ComicLibrary.mark_read(comic_key, chap_key)`; `now` is the value of
`time.time()` at the call. -/
def ComicLibrary.mark_read (L : ComicLibrary) (comic_key chap_key : String)
    (now : ℚ) : ComicLibrary :=
  match alookup L.comics comic_key with
  | none => L
  | some comic =>
    match alookup comic.chapters chap_key with
    | none => L
    | some chap =>
      let chap' := { chap with read := true, last_opened := now }
      let comic' := { comic with
        chapters := aset comic.chapters chap_key chap',
        last_read_chapter := some chap_key,
        last_read_page := 0 }
      { L with comics := aset L.comics comic_key comic' }

/-- `ComicLibrary.reset_progress(comic_key)`. -/
def ComicLibrary.reset_progress (L : ComicLibrary) (comic_key : String) :
    ComicLibrary :=
  match alookup L.comics comic_key with
  | none => L
  | some comic =>
    let comic' := { comic with
      chapters := comic.chapters.map
        (fun e => (e.1, { e.2 with read := false, last_opened := 0 })),
      last_read_chapter := none,
      last_read_page := 0 }
    { L with comics := aset L.comics comic_key comic' }

/-! ## The persisted state document (`save` / `_load_state`) -/

/-- One persisted chapter blob. -/
structure SavedChapter where
  read : Bool
  bookmarked : Bool
  last_opened : ℚ
deriving DecidableEq, Repr

/-- One persisted comic blob. -/
structure SavedComic where
  last_read_chapter : Option String
  last_read_page : Int
  favorite : Bool
  metadata : List (String × String)
  chapters : List (String × SavedChapter)
deriving DecidableEq, Repr

/-- The whole persisted JSON document (`{"comics": {...}}`). -/
structure SavedDoc where
  comics : List (String × SavedComic)
deriving DecidableEq, Repr

/-- The per-chapter dictionary written by `save`. -/
def savedOfChapter (ch : ChapterState) : SavedChapter :=
  { read := ch.read, bookmarked := ch.bookmarked, last_opened := ch.last_opened }

/-- The per-comic dictionary written by `save`. -/
def savedOfComic (c : ComicState) : SavedComic :=
  { last_read_chapter := c.last_read_chapter,
    last_read_page := c.last_read_page,
    favorite := c.favorite,
    metadata := c.metadata,
    chapters := c.chapters.map (fun e => (e.1, savedOfChapter e.2)) }

/-- The document `ComicLibrary.save` serialises (the `data` dictionary). -/
def ComicLibrary.saveDoc (L : ComicLibrary) : SavedDoc :=
  { comics := L.comics.map (fun e => (e.1, savedOfComic e.2)) }

/-- One iteration of the inner `_load_state` chapter loop: overwrite the
persisted fields of a still-present chapter, skip a vanished one. -/
def applyChapterBlob (acc : ComicState) (e : String × SavedChapter) : ComicState :=
  match alookup acc.chapters e.1 with
  | none => acc
  | some ch =>
    let ch' := { ch with
      read := e.2.read,
      bookmarked := e.2.bookmarked,
      last_opened := e.2.last_opened }
    { acc with chapters := aset acc.chapters e.1 ch' }

/-- The merge of one persisted comic blob into a live record
(the body of the outer `_load_state` loop after `get_comic` succeeded):
the comic-level fields are overwritten from the blob, and each blob chapter
that still exists in the record has its three persisted fields overwritten. -/
def applyBlob (c : ComicState) (b : SavedComic) : ComicState :=
  let c0 := { c with
    last_read_chapter := b.last_read_chapter,
    last_read_page := b.last_read_page,
    favorite := b.favorite,
    metadata := b.metadata }
  b.chapters.foldl applyChapterBlob c0

/-- One iteration of the outer `_load_state` loop: resolve the key via
`get_comic` (which may itself mutate the index), skip it when resolution
fails, otherwise merge the blob into the resolved record. -/
def loadEntry (fs : FS) (acc : ComicLibrary) (e : String × SavedComic) :
    ComicLibrary :=
  match ComicLibrary.get_comic fs acc e.1 with
  | (none, acc') => acc'
  | (some c, acc') =>
    { acc' with comics := aset acc'.comics e.1 (applyBlob c e.2) }

/-- `ComicLibrary._load_state` given an already-parsed document: resolve
each persisted key through `get_comic`, skip the ones that no longer
resolve, and merge the blob into the resolved record. -/
def ComicLibrary.loadState (fs : FS) (L : ComicLibrary) (doc : SavedDoc) :
    ComicLibrary :=
  doc.comics.foldl (loadEntry fs) L

/-! ## Association-map lemmas -/

theorem alookup_aset_self {β : Type} (m : List (String × β)) (k : String) (v : β) :
    alookup (aset m k v) k = some v := by
  induction m with
  | nil => simp [aset, alookup]
  | cons e m ih =>
    obtain ⟨k', w⟩ := e
    by_cases h : k' = k
    · subst h
      simp [aset, alookup]
    · simp [aset, alookup, h, ih]

theorem alookup_aset_ne {β : Type} (m : List (String × β)) (k k' : String) (v : β)
    (h : k' ≠ k) :
    alookup (aset m k v) k' = alookup m k' := by
  induction m with
  | nil =>
    simp only [aset, alookup]
    rw [if_neg (fun hh => h hh.symm)]
  | cons e m ih =>
    obtain ⟨k₀, w⟩ := e
    by_cases h0 : k₀ = k
    · subst h0
      simp only [aset, if_pos rfl, alookup]
      rw [if_neg (fun hh => h hh.symm), if_neg (fun hh => h hh.symm)]
    · simp only [aset, if_neg h0, alookup]
      by_cases h1 : k₀ = k'
      · rw [if_pos h1, if_pos h1]
      · rw [if_neg h1, if_neg h1, ih]

/-! ## Claim C2: a cached record whose rescan finds zero chapters -/

/-- Session-1 filesystem: `r/c/ch1` is a one-image chapter folder. -/
def exC2fs1 : FS :=
  [ (["r"], .dir), (["r", "c"], .dir), (["r", "c", "ch1"], .dir),
    (["r", "c", "ch1", "p1.jpg"], .file) ]

/-- The same tree after the chapter's image vanished: `r/c/ch1` is now an
empty directory, so `r/c` has no chapters. -/
def exC2fs2 : FS :=
  [ (["r"], .dir), (["r", "c"], .dir), (["r", "c", "ch1"], .dir) ]

/-- The library after `get_comic "c"` registered the comic from the
session-1 tree (a reachable index state caching one one-chapter record). -/
def exC2lib : ComicLibrary :=
  (ComicLibrary.get_comic exC2fs1 { roots := [["r"]] } "c").2

/-- Claim C2 (code bug): `get_comic` on a cached key whose rescan yields
zero chapters does NOT evict the record: the key stays in the index bound
to a record with an empty chapter map, and that empty record is returned. -/
theorem get_comic_keeps_zero_chapter_record :
    ((alookup exC2lib.comics "c").map (fun c => c.chapters.map Prod.fst)
        = some ["ch1"]) ∧
    ((exC2lib.get_comic exC2fs2 "c").1.map ComicState.chapters = some []) ∧
    (alookup (exC2lib.get_comic exC2fs2 "c").2.comics "c" =
      some { path := ["r", "c"], chapters := [] }) := by
  decide

/-! ## Claim C3: zero-chapter keys are never registered -/

/-- The registration step of `get_comic` never leaves a zero-chapter record
under a previously-unregistered key. -/
theorem registered_record_nonempty (L : ComicLibrary) (k : String)
    (cs : ComicState) (c : ComicState) (hnc : alookup L.comics k = none)
    (hc : alookup (if cs.chapters.isEmpty = true then (none, L)
        else (some cs, { L with comics := aset L.comics k cs })).2.comics k =
      some c) :
    c.chapters ≠ [] := by
  by_cases hE : cs.chapters.isEmpty = true
  · rw [if_pos hE] at hc
    dsimp only at hc
    rw [hnc] at hc
    cases hc
  · rw [if_neg hE] at hc
    dsimp only at hc
    rw [alookup_aset_self] at hc
    injection hc with h
    subst h
    intro hnil
    apply hE
    rw [hnil]
    rfl

/-- Claim C3: for an uncached key, when the resolved path yields zero
chapters and is not itself a readable unit, `get_comic` returns `none` and
registers nothing; and a record only ever appears under the key when its
chapter map is non-empty. -/
theorem get_comic_zero_chapters_not_registered (fs : FS) (L : ComicLibrary)
    (k : String) (hnc : alookup L.comics k = none) :
    (∀ p, getPathFromComicKey fs L.roots k = some p →
      (analyzeDirectoryContents fs p L.impure_threshold).1 = [] →
      isChapter fs p L.impure_threshold = false →
      (L.get_comic fs k).1 = none ∧
        alookup (L.get_comic fs k).2.comics k = none) ∧
    (∀ c, alookup (L.get_comic fs k).2.comics k = some c → c.chapters ≠ []) := by
  cases hres : getPathFromComicKey fs L.roots k with
  | none =>
    constructor
    · intro p hp
      cases hp
    · intro c hc
      simp only [ComicLibrary.get_comic, hnc, hres] at hc
      cases hc
  | some abs_path =>
    constructor
    · intro p hp hempty hch
      injection hp with hpp
      subst hpp
      simp only [ComicLibrary.get_comic, hnc, hres, hempty, hch]
      simp [buildChapters, hnc]
    · intro c hc
      simp only [ComicLibrary.get_comic, hnc, hres] at hc
      exact registered_record_nonempty L k
        ⟨abs_path, [],
         buildChapters
           (if ((analyzeDirectoryContents fs abs_path L.impure_threshold).1.isEmpty &&
                isChapter fs abs_path L.impure_threshold) = true then [abs_path]
            else (analyzeDirectoryContents fs abs_path L.impure_threshold).1),
         none, 0, false⟩ c hnc hc

/-- Witness tree for C3: the key `d` resolves to an empty directory. -/
def exC3fs : FS := [ (["r"], .dir), (["r", "d"], .dir) ]

def exC3lib : ComicLibrary := { roots := [["r"]] }

theorem get_comic_zero_chapters_not_registered_witness :
    alookup exC3lib.comics "d" = none ∧
    ((∀ p, getPathFromComicKey exC3fs exC3lib.roots "d" = some p →
      (analyzeDirectoryContents exC3fs p exC3lib.impure_threshold).1 = [] →
      isChapter exC3fs p exC3lib.impure_threshold = false →
      (exC3lib.get_comic exC3fs "d").1 = none ∧
        alookup (exC3lib.get_comic exC3fs "d").2.comics "d" = none) ∧
    (∀ c, alookup (exC3lib.get_comic exC3fs "d").2.comics "d" = some c →
      c.chapters ≠ [])) :=
  ⟨rfl, get_comic_zero_chapters_not_registered exC3fs exC3lib "d" rfl⟩

/-! ## Claim C9: single-file comics -/

/-- Witness tree for C9: the root holds a lone readable archive file. -/
def exC9fs : FS := [ (["r"], .dir), (["r", "one.cbz"], .file) ]

def exC9lib : ComicLibrary := { roots := [["r"]] }

/-- Claim C9 counterexample: for a key resolving to a lone readable file,
the synthetic one-chapter record's `path` field is the file itself
(`r/one.cbz`), not the file's parent directory (`r`). -/
theorem single_file_record_path_is_file :
    ((exC9lib.get_comic exC9fs "one.cbz").1.map ComicState.path =
      some ["r", "one.cbz"]) ∧
    ((exC9lib.get_comic exC9fs "one.cbz").1.map ComicState.path ≠
      some ["r"]) := by
  decide

/-- Claim C9 (amended): for an uncached key resolving to a path with zero
directory-analysis chapters that is itself a readable unit, `get_comic`
returns and registers a synthetic one-chapter record whose `path` field is
that file itself, with the single chapter keyed by the file's name. -/
theorem get_comic_single_file (fs : FS) (L : ComicLibrary) (k : String)
    (p : List String)
    (hnc : alookup L.comics k = none)
    (hres : getPathFromComicKey fs L.roots k = some p)
    (hempty : (analyzeDirectoryContents fs p L.impure_threshold).1 = [])
    (hch : isChapter fs p L.impure_threshold = true) :
    (L.get_comic fs k).1 =
      some { path := p, chapters := [(lastName p, { path := p })] } ∧
    alookup (L.get_comic fs k).2.comics k =
      some { path := p, chapters := [(lastName p, { path := p })] } := by
  simp only [ComicLibrary.get_comic, hnc, hres, hempty, hch]
  simp [buildChapters, aset, alookup_aset_self]

theorem get_comic_single_file_witness :
    alookup exC9lib.comics "one.cbz" = none ∧
    getPathFromComicKey exC9fs exC9lib.roots "one.cbz" = some ["r", "one.cbz"] ∧
    (analyzeDirectoryContents exC9fs ["r", "one.cbz"]
      exC9lib.impure_threshold).1 = [] ∧
    isChapter exC9fs ["r", "one.cbz"] exC9lib.impure_threshold = true ∧
    ((exC9lib.get_comic exC9fs "one.cbz").1 =
      some { path := ["r", "one.cbz"],
             chapters := [(lastName ["r", "one.cbz"],
               { path := ["r", "one.cbz"] })] } ∧
     alookup (exC9lib.get_comic exC9fs "one.cbz").2.comics "one.cbz" =
      some { path := ["r", "one.cbz"],
             chapters := [(lastName ["r", "one.cbz"],
               { path := ["r", "one.cbz"] })] }) :=
  ⟨rfl, by decide, by decide, by decide,
   get_comic_single_file exC9fs exC9lib "one.cbz" ["r", "one.cbz"]
     rfl (by decide) (by decide) (by decide)⟩

/-! ## Claim C4: the key space (`_get_comic_key_from_path`) -/

theorem mem_parentsOf {r p : List String} :
    r ∈ parentsOf p ↔ r <+: p ∧ r ≠ p := by
  unfold parentsOf
  simp only [List.mem_map, List.mem_range]
  constructor
  · rintro ⟨i, hi, rfl⟩
    refine ⟨List.take_prefix i p, fun h => ?_⟩
    have hlen := congrArg List.length h
    rw [List.length_take] at hlen
    omega
  · rintro ⟨hpre, hne⟩
    refine ⟨r.length, ?_, (List.prefix_iff_eq_take.mp hpre).symm⟩
    have hle := hpre.length_le
    rcases Nat.lt_or_ge r.length p.length with hlt | hge
    · exact hlt
    · exact absurd (hpre.eq_of_length (Nat.le_antisymm hle hge)) hne

/-- Claim C4 counterexample: `KeyFor` applied to a root itself returns the
single-dot key `"."`, not the empty-string key. -/
theorem keyFor_root_is_dot_not_empty :
    getComicKeyFromPath [["lib"]] ["lib"] = some "." ∧
    getComicKeyFromPath [["lib"]] ["lib"] ≠ some "" := by
  decide

/-- Claim C4 (amended): `KeyFor` chooses the first configured root that
equals the path or is a strict ancestor of it; for the root itself the key
is `"."`, for a strict descendant it is the root-relative components
joined with `/`, and outside every root the result is none. -/
theorem keyFor_characterisation (roots : List (List String)) (p : List String) :
    (getComicKeyFromPath roots p =
      (roots.find? (fun r => r.isPrefixOf p)).map
        (fun r => if p = r then "."
          else String.intercalate "/" (p.drop r.length))) ∧
    (getComicKeyFromPath roots p = none ↔ ∀ r ∈ roots, ¬ r <+: p) := by
  have main : getComicKeyFromPath roots p =
      (roots.find? (fun r => r.isPrefixOf p)).map
        (fun r => if p = r then "."
          else String.intercalate "/" (p.drop r.length)) := by
    induction roots with
    | nil => rfl
    | cons r rs ih =>
      simp only [getComicKeyFromPath]
      by_cases hpre : r <+: p
      · rw [if_pos ?side]
        case side =>
          rcases eq_or_ne r p with heq | hne
          · exact Or.inl heq
          · exact Or.inr (mem_parentsOf.mpr ⟨hpre, hne⟩)
        rw [List.find?_cons_of_pos _ (by simpa [List.isPrefixOf_iff_prefix] using hpre)]
        simp only [Option.map_some']
        rcases eq_or_ne p r with heq | hne
        · subst heq
          simp [relativeToPosix, List.drop_length]
        · simp only [relativeToPosix]
          rw [if_neg hne, if_neg ?rel]
          case rel =>
            intro hE
            apply hne
            rw [List.isEmpty_iff, List.drop_eq_nil_iff] at hE
            exact (hpre.eq_of_length (Nat.le_antisymm hpre.length_le hE)).symm
      · rw [if_neg ?noside]
        case noside =>
          rintro (heq | hmem)
          · exact hpre (heq ▸ List.prefix_refl r)
          · exact hpre (mem_parentsOf.mp hmem).1
        rw [List.find?_cons_of_neg _ (by simpa [List.isPrefixOf_iff_prefix] using hpre)]
        exact ih
  refine ⟨main, ?_⟩
  rw [main, Option.map_eq_none', List.find?_eq_none]
  constructor
  · intro h r hr hpre
    exact absurd (List.isPrefixOf_iff_prefix.mpr hpre) (by simpa using h r hr)
  · intro h r hr
    simp only [Bool.not_eq_true]
    rw [← Bool.not_eq_true, List.isPrefixOf_iff_prefix]
    exact h r hr

/-! ## Claim C5: `mark_read` -/

/-- Claim C5: when both keys resolve, `mark_read` sets the chapter's read
flag and last-opened time, and the comic's last-read chapter and page; when
either key is absent it is a silent no-op that changes nothing. -/
theorem mark_read_spec (L : ComicLibrary) (ck chk : String) (now : ℚ) :
    (∀ c ch, alookup L.comics ck = some c →
      alookup c.chapters chk = some ch →
      L.mark_read ck chk now =
        { L with comics := aset L.comics ck ({ c with
            chapters := aset c.chapters chk ({ ch with read := true, last_opened := now }),
            last_read_chapter := some chk,
            last_read_page := 0 }) }) ∧
    ((alookup L.comics ck = none ∨
      (∃ c, alookup L.comics ck = some c ∧ alookup c.chapters chk = none)) →
      L.mark_read ck chk now = L) := by
  constructor
  · intro c ch hc hch
    simp only [ComicLibrary.mark_read, hc, hch]
  · rintro (hnone | ⟨c, hc, hch⟩)
    · simp only [ComicLibrary.mark_read, hnone]
    · simp only [ComicLibrary.mark_read, hc, hch]

/-- A two-comic library used to witness the mutation claims. -/
def exMutlib : ComicLibrary :=
  { roots := [["r"]],
    comics := [("c",
      { path := ["r", "c"],
        metadata := [("author", "x")],
        chapters := [("ch1", { path := ["r", "c", "ch1"], bookmarked := true }),
                     ("ch2", { path := ["r", "c", "ch2"] })],
        favorite := true })] }

theorem mark_read_spec_witness :
    (alookup exMutlib.comics "c" =
      some { path := ["r", "c"],
             metadata := [("author", "x")],
             chapters := [("ch1", { path := ["r", "c", "ch1"], bookmarked := true }),
                          ("ch2", { path := ["r", "c", "ch2"] })],
             favorite := true }) ∧
    (alookup [("ch1", ({ path := ["r", "c", "ch1"], bookmarked := true } : ChapterState)),
              ("ch2", { path := ["r", "c", "ch2"] })] "ch1" =
      some { path := ["r", "c", "ch1"], bookmarked := true }) ∧
    exMutlib.mark_read "c" "ch1" 5 =
      { exMutlib with comics := aset exMutlib.comics "c" ({ path := ["r", "c"], metadata := [("author", "x")], chapters := aset [("ch1", { path := ["r", "c", "ch1"], bookmarked := true }), ("ch2", { path := ["r", "c", "ch2"] })] "ch1" ({ path := ["r", "c", "ch1"], read := true, bookmarked := true, last_opened := 5 }), last_read_chapter := some "ch1", last_read_page := 0, favorite := true }) } :=
  ⟨by decide, by decide,
   (mark_read_spec exMutlib "c" "ch1" 5).1
     { path := ["r", "c"],
       metadata := [("author", "x")],
       chapters := [("ch1", { path := ["r", "c", "ch1"], bookmarked := true }),
                    ("ch2", { path := ["r", "c", "ch2"] })],
       favorite := true }
     { path := ["r", "c", "ch1"], bookmarked := true }
     (by decide) (by decide)⟩

/-! ## Claim C10: `reset_progress` -/

/-- Claim C10: for a present key, `reset_progress` clears every chapter's
read flag and last-opened time (keeping its bookmark and path), clears the
comic's last-read chapter and page (keeping path, favorite and metadata),
and leaves every other comic untouched; for an absent key it is a no-op. -/
theorem reset_progress_spec (L : ComicLibrary) (ck : String) :
    (∀ c, alookup L.comics ck = some c →
      (alookup (L.reset_progress ck).comics ck =
        some { c with
          chapters := c.chapters.map
            (fun e => (e.1, { e.2 with read := false, last_opened := 0 })),
          last_read_chapter := none,
          last_read_page := 0 }) ∧
      (∀ k', k' ≠ ck →
        alookup (L.reset_progress ck).comics k' = alookup L.comics k')) ∧
    (alookup L.comics ck = none → L.reset_progress ck = L) := by
  constructor
  · intro c hc
    constructor
    · simp only [ComicLibrary.reset_progress, hc]
      exact alookup_aset_self _ _ _
    · intro k' hk'
      simp only [ComicLibrary.reset_progress, hc]
      exact alookup_aset_ne _ _ _ _ hk'
  · intro hnone
    simp only [ComicLibrary.reset_progress, hnone]

theorem reset_progress_spec_witness :
    (alookup exMutlib.comics "c" =
      some { path := ["r", "c"],
             metadata := [("author", "x")],
             chapters := [("ch1", { path := ["r", "c", "ch1"], bookmarked := true }),
                          ("ch2", { path := ["r", "c", "ch2"] })],
             favorite := true }) ∧
    ((alookup (exMutlib.reset_progress "c").comics "c" =
      some { path := ["r", "c"],
             metadata := [("author", "x")],
             chapters := [("ch1", { path := ["r", "c", "ch1"], read := false, bookmarked := true, last_opened := 0 }), ("ch2", { path := ["r", "c", "ch2"], read := false, bookmarked := false, last_opened := 0 })],
             last_read_chapter := none,
             last_read_page := 0,
             favorite := true }) ∧
     (∀ k', k' ≠ "c" →
        alookup (exMutlib.reset_progress "c").comics k' =
          alookup exMutlib.comics k')) :=
  ⟨by decide,
   (reset_progress_spec exMutlib "c").1
     { path := ["r", "c"],
       metadata := [("author", "x")],
       chapters := [("ch1", { path := ["r", "c", "ch1"], bookmarked := true }),
                    ("ch2", { path := ["r", "c", "ch2"] })],
       favorite := true }
     (by decide)⟩

/-! ## Claim C8: `save` error reporting -/

/-- The outcome of the `state_file.write_text` call inside `save`. -/
inductive WriteAttempt : Type
  | ok : WriteAttempt
  | oserror : String → WriteAttempt
deriving DecidableEq, Repr

/-- What a call to `save` produces, as seen from outside: what reached the
disk, what was printed, and what the method returned (or raised) to its
caller. -/
structure SaveOutcome where
  written : Option SavedDoc
  log : List String
  returned : Option String
deriving DecidableEq, Repr

/-- `ComicLibrary.save`: build the document, try to write it; an `OSError`
is caught inside the method and printed.  The Python method falls off the
end in both branches, i.e. it returns `None` to the caller either way. -/
def ComicLibrary.save (L : ComicLibrary) (w : WriteAttempt) : SaveOutcome :=
  match w with
  | WriteAttempt.ok =>
    { written := some L.saveDoc,
      log := ["[INFO] Application state saved."],
      returned := none }
  | WriteAttempt.oserror e =>
    { written := none,
      log := ["[ERROR] ComicLibrary save error: " ++ e],
      returned := none }

/-- Claim C8 counterexample: on a disk-level write failure (`OSError`:
disk full), `save` returns no failure result to the caller — the failure
is swallowed inside the method (only a console line records it). -/
theorem save_failure_not_reported :
    (ComicLibrary.save { roots := [["r"]] } (WriteAttempt.oserror "disk full")).returned
      = none ∧
    ¬ ((ComicLibrary.save { roots := [["r"]] }
        (WriteAttempt.oserror "disk full")).returned ≠ none) := by
  exact ⟨rfl, fun h => h rfl⟩

/-- Claim C8 (amended): a disk-level write failure during `save` is caught
inside the method and logged to the console; nothing is written, and the
caller receives no failure result — `save` returns `None` on failure just
as on success. -/
theorem save_failure_logged_only (L : ComicLibrary) (e : String) :
    (L.save (WriteAttempt.oserror e)).written = none ∧
    (L.save (WriteAttempt.oserror e)).log =
      ["[ERROR] ComicLibrary save error: " ++ e] ∧
    (L.save (WriteAttempt.oserror e)).returned = none ∧
    (L.save WriteAttempt.ok).returned = none :=
  ⟨rfl, rfl, rfl, rfl⟩

/-! ## Claim C6: save / load round trip

The lemma stack below tracks one key through `loadState`:
`get_comic` never touches other keys, a load entry for another key never
touches ours, and the entry for our key either fails to resolve (leaving
the key absent) or stores `applyBlob` of the resolved record. -/

theorem alookup_some_mem {β : Type} {m : List (String × β)} {k : String} {v : β}
    (h : alookup m k = some v) : (k, v) ∈ m := by
  induction m with
  | nil => cases h
  | cons e m ih =>
    obtain ⟨k0, w⟩ := e
    by_cases hk : k0 = k
    · subst hk
      simp only [alookup, if_pos rfl] at h
      injection h with h
      subst h
      exact List.mem_cons_self _ _
    · simp only [alookup, if_neg hk] at h
      exact List.mem_cons_of_mem _ (ih h)

theorem alookup_map_value {β γ : Type} (f : β → γ) (m : List (String × β))
    (k : String) :
    alookup (m.map (fun e => (e.1, f e.2))) k = (alookup m k).map f := by
  induction m with
  | nil => rfl
  | cons e m ih =>
    obtain ⟨k0, w⟩ := e
    by_cases hk : k0 = k
    · subst hk
      simp [alookup]
    · simp [alookup, hk, ih]

/-- `get_comic` never touches index entries under other keys. -/
theorem get_comic_frame (fs : FS) (L : ComicLibrary) (k k' : String)
    (h : k' ≠ k) :
    alookup (L.get_comic fs k).2.comics k' = alookup L.comics k' := by
  unfold ComicLibrary.get_comic
  cases hc : alookup L.comics k with
  | some comic =>
    dsimp only
    split
    · rfl
    · exact alookup_aset_ne _ _ _ _ h
  | none =>
    dsimp only
    cases hres : getPathFromComicKey fs L.roots k with
    | none => rfl
    | some p =>
      dsimp only
      split
      all_goals split
      any_goals rfl
      all_goals exact alookup_aset_ne _ _ _ _ h

/-- When `get_comic` returns a record, that record is what the index now
holds under the key. -/
theorem get_comic_result_registered (fs : FS) (L : ComicLibrary) (k : String)
    (c : ComicState) (L' : ComicLibrary)
    (h : L.get_comic fs k = (some c, L')) :
    alookup L'.comics k = some c := by
  unfold ComicLibrary.get_comic at h
  cases hc : alookup L.comics k with
  | some comic =>
    rw [hc] at h
    dsimp only at h
    split at h
    · injection h with h1 h2
      injection h1 with h1
      subst h1
      subst h2
      exact hc
    · injection h with h1 h2
      injection h1 with h1
      subst h1
      subst h2
      exact alookup_aset_self _ _ _
  | none =>
    rw [hc] at h
    dsimp only at h
    cases hres : getPathFromComicKey fs L.roots k with
    | none =>
      rw [hres] at h
      injection h with h1 h2
      cases h1
    | some p =>
      rw [hres] at h
      dsimp only at h
      split at h
      all_goals split at h
      all_goals
        first
          | (injection h with h1 h2
             injection h1 with h1
             subst h1
             subst h2
             exact alookup_aset_self _ _ _)
          | (injection h with h1 h2
             cases h1)

/-- When `get_comic` returns `none`, the key is absent from the index it
leaves behind. -/
theorem get_comic_none_absent (fs : FS) (L : ComicLibrary) (k : String)
    (L' : ComicLibrary) (h : L.get_comic fs k = (none, L')) :
    alookup L'.comics k = none := by
  unfold ComicLibrary.get_comic at h
  cases hc : alookup L.comics k with
  | some comic =>
    rw [hc] at h
    dsimp only at h
    split at h
    · injection h with h1 h2
      cases h1
    · injection h with h1 h2
      cases h1
  | none =>
    rw [hc] at h
    dsimp only at h
    cases hres : getPathFromComicKey fs L.roots k with
    | none =>
      rw [hres] at h
      injection h with h1 h2
      subst h2
      exact hc
    | some p =>
      rw [hres] at h
      dsimp only at h
      split at h
      all_goals split at h
      all_goals
        first
          | (injection h with h1 h2
             subst h2
             exact hc)
          | (injection h with h1 h2
             cases h1)

/-- A load entry for a different key never touches ours. -/
theorem loadEntry_frame (fs : FS) (L : ComicLibrary) (e : String × SavedComic)
    (k : String) (h : e.1 ≠ k) :
    alookup (loadEntry fs L e).comics k = alookup L.comics k := by
  unfold loadEntry
  cases hg : ComicLibrary.get_comic fs L e.1 with
  | mk res L1 =>
    have hframe : alookup L1.comics k = alookup L.comics k := by
      have := get_comic_frame fs L e.1 k (fun hh => h hh.symm)
      rw [hg] at this
      exact this
    cases res with
    | none => exact hframe
    | some c =>
      dsimp only
      rw [alookup_aset_ne _ _ _ _ (fun hh => h hh.symm)]
      exact hframe

/-- Folding load entries none of which carry our key leaves it untouched. -/
theorem loadFold_frame (fs : FS) (entries : List (String × SavedComic))
    (L : ComicLibrary) (k : String) (h : ∀ e ∈ entries, e.1 ≠ k) :
    alookup (entries.foldl (loadEntry fs) L).comics k = alookup L.comics k := by
  induction entries generalizing L with
  | nil => rfl
  | cons e rest ih =>
    rw [List.foldl_cons, ih _ (fun x hx => h x (List.mem_cons_of_mem _ hx))]
    exact loadEntry_frame fs L e k (h e (List.mem_cons_self _ _))

/-- Through a whole load fold, whatever record ends up under a persisted
key is `applyBlob` of some record resolved by `get_comic` with that key's
first blob. -/
theorem loadFold_at_key (fs : FS) (entries : List (String × SavedComic))
    (L : ComicLibrary) (k : String) (b : SavedComic)
    (hnd : (entries.map Prod.fst).Nodup)
    (hk : alookup entries k = some b) :
    ∀ c2, alookup (entries.foldl (loadEntry fs) L).comics k = some c2 →
      ∃ c1, c2 = applyBlob c1 b := by
  induction entries generalizing L with
  | nil => cases hk
  | cons e rest ih =>
    obtain ⟨m, b'⟩ := e
    rw [List.map_cons, List.nodup_cons] at hnd
    by_cases hm : m = k
    · subst hm
      simp only [alookup, if_pos rfl] at hk
      injection hk with hk
      subst hk
      intro c2 h2
      rw [List.foldl_cons] at h2
      have hnot : ∀ x ∈ rest, x.1 ≠ m := by
        intro x hx hxe
        have hmem : x.1 ∈ rest.map Prod.fst := List.mem_map_of_mem Prod.fst hx
        rw [hxe] at hmem
        exact hnd.1 hmem
      rw [loadFold_frame fs rest _ m hnot] at h2
      unfold loadEntry at h2
      cases hg : ComicLibrary.get_comic fs L m with
      | mk res L1 =>
        rw [hg] at h2
        cases res with
        | none =>
          rw [get_comic_none_absent fs L m L1 hg] at h2
          cases h2
        | some c1 =>
          dsimp only at h2
          rw [alookup_aset_self] at h2
          injection h2 with h2
          exact ⟨c1, h2.symm⟩
    · simp only [alookup, if_neg hm] at hk
      intro c2 h2
      rw [List.foldl_cons] at h2
      exact ih _ hnd.2 hk c2 h2

/-- The chapter-merge fold leaves alone every chapter key that no blob
mentions. -/
theorem applyChapters_frame (blobs : List (String × SavedChapter))
    (acc : ComicState) (n : String) (h : ∀ e ∈ blobs, e.1 ≠ n) :
    alookup (blobs.foldl applyChapterBlob acc).chapters n =
      alookup acc.chapters n := by
  induction blobs generalizing acc with
  | nil => rfl
  | cons e rest ih =>
    rw [List.foldl_cons, ih _ (fun x hx => h x (List.mem_cons_of_mem _ hx))]
    unfold applyChapterBlob
    cases hc : alookup acc.chapters e.1 with
    | none => rfl
    | some ch =>
      dsimp only
      exact alookup_aset_ne _ _ _ _
        (fun hh => h e (List.mem_cons_self _ _) hh.symm)

/-- The comic-level fields written by the blob survive the chapter-merge
fold. -/
theorem applyChapters_fields (blobs : List (String × SavedChapter))
    (acc : ComicState) :
    (blobs.foldl applyChapterBlob acc).favorite = acc.favorite ∧
    (blobs.foldl applyChapterBlob acc).last_read_chapter = acc.last_read_chapter ∧
    (blobs.foldl applyChapterBlob acc).last_read_page = acc.last_read_page ∧
    (blobs.foldl applyChapterBlob acc).metadata = acc.metadata := by
  induction blobs generalizing acc with
  | nil => exact ⟨rfl, rfl, rfl, rfl⟩
  | cons e rest ih =>
    rw [List.foldl_cons]
    refine ((ih (applyChapterBlob acc e)).imp ?_ (fun hh => hh.imp ?_ (fun hh2 => hh2.imp ?_ ?_))) <;>
      (intro hx; rw [hx]; unfold applyChapterBlob; cases alookup acc.chapters e.1 <;> rfl)

/-- A chapter key present in the blob list ends up carrying its first
blob's persisted values whenever it is still present after the merge. -/
theorem applyChapters_at_key (blobs : List (String × SavedChapter))
    (acc : ComicState) (n : String) (sb : SavedChapter)
    (hnd : (blobs.map Prod.fst).Nodup)
    (hn : alookup blobs n = some sb) :
    ∀ ch2, alookup (blobs.foldl applyChapterBlob acc).chapters n = some ch2 →
      ch2.read = sb.read ∧ ch2.bookmarked = sb.bookmarked ∧
      ch2.last_opened = sb.last_opened := by
  induction blobs generalizing acc with
  | nil => cases hn
  | cons e rest ih =>
    obtain ⟨m, info⟩ := e
    rw [List.map_cons, List.nodup_cons] at hnd
    by_cases hm : m = n
    · subst hm
      simp only [alookup, if_pos rfl] at hn
      injection hn with hn
      subst hn
      intro ch2 h2
      rw [List.foldl_cons] at h2
      have hnot : ∀ x ∈ rest, x.1 ≠ m := by
        intro x hx hxe
        have hmem : x.1 ∈ rest.map Prod.fst := List.mem_map_of_mem Prod.fst hx
        rw [hxe] at hmem
        exact hnd.1 hmem
      rw [applyChapters_frame rest _ m hnot] at h2
      unfold applyChapterBlob at h2
      cases hc : alookup acc.chapters m with
      | none =>
        rw [hc] at h2
        rw [hc] at h2
        cases h2
      | some ch =>
        rw [hc] at h2
        dsimp only at h2
        rw [alookup_aset_self] at h2
        injection h2 with h2
        subst h2
        exact ⟨rfl, rfl, rfl⟩
    · simp only [alookup, if_neg hm] at hn
      intro ch2 h2
      rw [List.foldl_cons] at h2
      exact ih _ hnd.2 hn ch2 h2

theorem applyBlob_fields (c1 : ComicState) (b : SavedComic) :
    (applyBlob c1 b).favorite = b.favorite ∧
    (applyBlob c1 b).last_read_chapter = b.last_read_chapter ∧
    (applyBlob c1 b).last_read_page = b.last_read_page ∧
    (applyBlob c1 b).metadata = b.metadata := by
  unfold applyBlob
  exact applyChapters_fields b.chapters _

/-- Claim C6: `Save` followed by `Load` reproduces every persisted field.
For an index `L` with well-formed (duplicate-free) key maps, loading the
document written by `save` into any starting index: whatever record the
loaded index holds under a saved key carries exactly the saved comic-level
fields (`favorite`, `lastReadChapterKey`, `lastReadPage`, `metadata`), and
every surviving chapter (present in both the saved record and the loaded
record) carries exactly the saved `read`, `bookmarked`, `lastOpenedAt`. -/
theorem save_load_round_trip (fs : FS) (L L0 : ComicLibrary)
    (hkeys : (L.comics.map Prod.fst).Nodup)
    (hch : ∀ e ∈ L.comics, (e.2.chapters.map Prod.fst).Nodup) :
    ∀ k c, alookup L.comics k = some c →
      ∀ c2, alookup (ComicLibrary.loadState fs L0 L.saveDoc).comics k = some c2 →
        c2.favorite = c.favorite ∧
        c2.last_read_chapter = c.last_read_chapter ∧
        c2.last_read_page = c.last_read_page ∧
        c2.metadata = c.metadata ∧
        (∀ n chL ch2, alookup c.chapters n = some chL →
          alookup c2.chapters n = some ch2 →
          ch2.read = chL.read ∧ ch2.bookmarked = chL.bookmarked ∧
          ch2.last_opened = chL.last_opened) := by
  intro k c hkc c2 h2
  have hdoc : alookup (L.saveDoc).comics k = some (savedOfComic c) := by
    unfold ComicLibrary.saveDoc
    dsimp only
    rw [alookup_map_value savedOfComic L.comics k, hkc]
    rfl
  have hnd : ((L.saveDoc).comics.map Prod.fst).Nodup := by
    unfold ComicLibrary.saveDoc
    dsimp only
    rw [List.map_map]
    exact hkeys
  obtain ⟨c1, hc2⟩ :=
    loadFold_at_key fs (L.saveDoc).comics L0 k (savedOfComic c) hnd hdoc c2 h2
  subst hc2
  obtain ⟨hf, hlrc, hlrp, hmd⟩ := applyBlob_fields c1 (savedOfComic c)
  refine ⟨hf, hlrc, hlrp, hmd, ?_⟩
  intro n chL ch2 hcn h2n
  have hbn : alookup (savedOfComic c).chapters n = some (savedOfChapter chL) := by
    unfold savedOfComic
    dsimp only
    rw [alookup_map_value savedOfChapter c.chapters n, hcn]
    rfl
  have hbnd : ((savedOfComic c).chapters.map Prod.fst).Nodup := by
    unfold savedOfComic
    dsimp only
    rw [List.map_map]
    exact hch (k, c) (alookup_some_mem hkc)
  have := applyChapters_at_key (savedOfComic c).chapters _ n (savedOfChapter chL)
    hbnd hbn ch2 (by unfold applyBlob at h2n; exact h2n)
  exact this

theorem save_load_round_trip_witness :
    ((exMutlib.comics.map Prod.fst).Nodup) ∧
    (∀ e ∈ exMutlib.comics, (e.2.chapters.map Prod.fst).Nodup) ∧
    (∀ k c, alookup exMutlib.comics k = some c →
      ∀ c2, alookup (ComicLibrary.loadState exC2fs1 { roots := [["r"]] }
          exMutlib.saveDoc).comics k = some c2 →
        c2.favorite = c.favorite ∧
        c2.last_read_chapter = c.last_read_chapter ∧
        c2.last_read_page = c.last_read_page ∧
        c2.metadata = c.metadata ∧
        (∀ n chL ch2, alookup c.chapters n = some chL →
          alookup c2.chapters n = some ch2 →
          ch2.read = chL.read ∧ ch2.bookmarked = chL.bookmarked ∧
          ch2.last_opened = chL.last_opened)) :=
  ⟨by decide, by decide,
   save_load_round_trip exC2fs1 exMutlib { roots := [["r"]] }
     (by decide) (by decide)⟩

/-! ## Claim C7: natural chapter sorting (`sorted_chapters`, natsort)

`sorted_chapters(by="name")` calls the external `natsort.natsorted` with
`key=display_name` and default settings (`ns.INT`): each name is split into
alternating non-digit/digit runs; a digit run becomes an integer, any other
run stays a string (with a leading empty string inserted when the name
starts with a digit run, so positions always compare str-to-str and
int-to-int); tuples compare lexicographically, strings by code point
(case-sensitively), and Python's sort is stable, with `reverse=True`
passed straight to `sorted`. -/

/-- Maximal runs of the character list, each tagged with whether it is a
digit run (the `(\d+)`-split underlying natsort's default key). -/
def splitRuns : List Char → List (Bool × List Char)
  | [] => []
  | c :: cs =>
    match splitRuns cs with
    | [] => [(c.isDigit, [c])]
    | (b, r) :: rest =>
      if c.isDigit = b then (b, c :: r) :: rest
      else (c.isDigit, [c]) :: (b, r) :: rest

/-- `int(run)` for a digit run (leading zeros collapse). -/
def digitsToNat (r : List Char) : Nat :=
  r.foldl (fun a c => a * 10 + (c.toNat - 48)) 0

/-- One component of a natsort key: a string run or a numeric run. -/
inductive NatsortAtom : Type
  | str : List Char → NatsortAtom
  | num : Nat → NatsortAtom
deriving DecidableEq, Repr

/-- natsort's default key of one name (`natsort_key` with `ns.INT`):
alternating string/number atoms, starting with a (possibly empty) string
atom. -/
def natsortKey (s : String) : List NatsortAtom :=
  let atoms := (splitRuns s.data).map
    (fun br => if br.1 then NatsortAtom.num (digitsToNat br.2)
      else NatsortAtom.str br.2)
  match atoms with
  | [] => [NatsortAtom.str []]
  | NatsortAtom.num _ :: _ => NatsortAtom.str [] :: atoms
  | _ => atoms

/-- Python `<` on characters: by code point. -/
def charCmp (a b : Char) : Ordering :=
  if a.toNat < b.toNat then Ordering.lt
  else if b.toNat < a.toNat then Ordering.gt
  else Ordering.eq

/-- Python `<` on strings: lexicographic by code point. -/
def clCmp : List Char → List Char → Ordering
  | [], [] => Ordering.eq
  | [], _ :: _ => Ordering.lt
  | _ :: _, [] => Ordering.gt
  | a :: as, b :: bs =>
    match charCmp a b with
    | Ordering.eq => clCmp as bs
    | o => o

def natCmp (a b : Nat) : Ordering :=
  if a < b then Ordering.lt
  else if b < a then Ordering.gt
  else Ordering.eq

/-- Comparison of key atoms.  natsort's generated keys never compare a
string atom against a number atom at the same position (every key
alternates starting with a string atom, so positions agree in kind);
the cross cases are fixed arbitrarily to keep the order total. -/
def atomCmp : NatsortAtom → NatsortAtom → Ordering
  | NatsortAtom.str a, NatsortAtom.str b => clCmp a b
  | NatsortAtom.num a, NatsortAtom.num b => natCmp a b
  | NatsortAtom.str _, NatsortAtom.num _ => Ordering.lt
  | NatsortAtom.num _, NatsortAtom.str _ => Ordering.gt

/-- Python tuple comparison of natsort keys (shorter tuple first on ties). -/
def keyCmp : List NatsortAtom → List NatsortAtom → Ordering
  | [], [] => Ordering.eq
  | [], _ :: _ => Ordering.lt
  | _ :: _, [] => Ordering.gt
  | a :: as, b :: bs =>
    match atomCmp a b with
    | Ordering.eq => keyCmp as bs
    | o => o

/-- `key_a < key_b` as a Boolean. -/
def keyLtB (a b : List NatsortAtom) : Bool :=
  match keyCmp a b with
  | Ordering.lt => true
  | _ => false

/-- Stable insertion: `x` (the earlier element) goes in front of the first
`y` it is allowed to precede. -/
def stableInsertBy {α : Type} (keep : α → α → Bool) (x : α) :
    List α → List α
  | [] => [x]
  | y :: ys => if keep x y then x :: y :: ys else y :: stableInsertBy keep x ys

/-- A stable sort parameterised by the may-precede test `keep`: Python's
stable `sorted` is `keep a b = ¬(key b < key a)` ascending and
`keep a b = ¬(key a < key b)` for `reverse=True`. -/
def stableSortBy {α : Type} (keep : α → α → Bool) : List α → List α
  | [] => []
  | x :: xs => stableInsertBy keep x (stableSortBy keep xs)

/-- The `by="name"` branch of `ComicState.sorted_chapters`:
`natsorted(self.chapters.values(), key=lambda ch: ch.display_name,
reverse=reverse)`. -/
def ComicState.sorted_chapters_by_name (fs : FS) (c : ComicState)
    (reverse : Bool) : List ChapterState :=
  let key := fun ch => natsortKey (ChapterState.display_name fs ch)
  let vals := c.chapters.map Prod.snd
  if reverse then stableSortBy (fun a b => ¬ keyLtB (key a) (key b)) vals
  else stableSortBy (fun a b => ¬ keyLtB (key b) (key a)) vals

/-- The natural key exactly as the claim describes it: normalise `_` and
`-` to spaces, collapse whitespace runs, lowercase, then split into
digit/non-digit runs (digit runs numeric, the rest lexicographic).
This definition follows the claim's words, for comparison with the
`natsortKey` the code actually uses. -/
def collapseSpaces : List Char → List Char
  | [] => []
  | [c] => [c]
  | a :: b :: cs =>
    if a = ' ' ∧ b = ' ' then collapseSpaces (b :: cs)
    else a :: collapseSpaces (b :: cs)

def specNaturalKey (s : String) : List NatsortAtom :=
  let cs := (collapseSpaces (s.data.map
    (fun c => if c = '_' ∨ c = '-' then ' ' else c))).map lowerChar
  (splitRuns cs).map
    (fun br => if br.1 then NatsortAtom.num (digitsToNat br.2)
      else NatsortAtom.str br.2)

/-- A comic with chapter folders `Ch10` and `ch2`. -/
def exC7fs : FS :=
  [ (["r"], EntryKind.dir), (["r", "m"], EntryKind.dir),
    (["r", "m", "Ch10"], EntryKind.dir), (["r", "m", "ch2"], EntryKind.dir) ]

def exC7comic : ComicState :=
  { path := ["r", "m"],
    chapters := [("Ch10", { path := ["r", "m", "Ch10"] }),
                 ("ch2", { path := ["r", "m", "ch2"] })] }

/-- Claim C7 counterexample: the claimed key derivation (lowercase after
separator normalisation) orders `ch2` strictly before `Ch10`, but the code
(natsort's default, case-sensitive key) sorts `Ch10` before `ch2` — so
`sorted_chapters(by="name")` does not order by the claimed key. -/
theorem natural_sort_key_mismatch :
    ((exC7comic.sorted_chapters_by_name exC7fs false).map
      (ChapterState.display_name exC7fs) = ["Ch10", "ch2"]) ∧
    keyLtB (specNaturalKey "ch2") (specNaturalKey "Ch10") = true := by
  decide

/-! ### Order properties of the natsort key comparison -/

theorem charCmp_swap (a b : Char) : charCmp a b = (charCmp b a).swap := by
  unfold charCmp
  rcases Nat.lt_trichotomy a.toNat b.toNat with h | h | h
  · simp [h, Nat.lt_asymm h, Ordering.swap]
  · simp [h, Nat.lt_irrefl, Ordering.swap]
  · simp [h, Nat.lt_asymm h, Ordering.swap]

theorem charCmp_eq {a b : Char} (h : charCmp a b = Ordering.eq) : a = b := by
  unfold charCmp at h
  split at h
  · cases h
  · split at h
    · cases h
    · have : a.toNat = b.toNat := by omega
      exact Char.ext (UInt32.ext this)

theorem charCmp_lt_trans {a b c : Char} (h1 : charCmp a b = Ordering.lt)
    (h2 : charCmp b c = Ordering.lt) : charCmp a c = Ordering.lt := by
  unfold charCmp at *
  split at h1
  · split at h2
    · rename_i hab hbc
      rw [if_pos (Nat.lt_trans hab hbc)]
    · split at h2
      · cases h2
      · cases h2
  · split at h1
    · cases h1
    · cases h1

theorem clCmp_swap (a b : List Char) : clCmp a b = (clCmp b a).swap := by
  induction a generalizing b with
  | nil => cases b <;> rfl
  | cons x xs ih =>
    cases b with
    | nil => rfl
    | cons y ys =>
      simp only [clCmp]
      rw [charCmp_swap]
      cases hyx : charCmp y x <;> simp [Ordering.swap, ih]

theorem clCmp_eq {a b : List Char} (h : clCmp a b = Ordering.eq) : a = b := by
  induction a generalizing b with
  | nil => cases b with
    | nil => rfl
    | cons y ys => cases h
  | cons x xs ih =>
    cases b with
    | nil => cases h
    | cons y ys =>
      simp only [clCmp] at h
      cases hxy : charCmp x y <;> rw [hxy] at h
      · cases h
      · rw [charCmp_eq hxy, ih h]
      · cases h

theorem clCmp_lt_trans {a b c : List Char} (h1 : clCmp a b = Ordering.lt)
    (h2 : clCmp b c = Ordering.lt) : clCmp a c = Ordering.lt := by
  induction a generalizing b c with
  | nil =>
    cases b with
    | nil => cases h1
    | cons y ys =>
      cases c with
      | nil => cases h2
      | cons z zs => rfl
  | cons x xs ih =>
    cases b with
    | nil => cases h1
    | cons y ys =>
      cases c with
      | nil => cases h2
      | cons z zs =>
        simp only [clCmp] at *
        cases hxy : charCmp x y <;> rw [hxy] at h1
        · cases hyz : charCmp y z <;> rw [hyz] at h2
          · rw [charCmp_lt_trans hxy hyz]
          · rw [← charCmp_eq hyz, hxy]
          · cases h2
        · cases hyz : charCmp y z <;> rw [hyz] at h2
          · rw [charCmp_eq hxy, hyz]
          · rw [charCmp_eq hxy, hyz]
            exact ih h1 h2
          · cases h2
        · cases h1

theorem natCmp_swap (a b : Nat) : natCmp a b = (natCmp b a).swap := by
  unfold natCmp
  rcases Nat.lt_trichotomy a b with h | h | h
  · simp [h, Nat.lt_asymm h, Ordering.swap]
  · simp [h, Nat.lt_irrefl, Ordering.swap]
  · simp [h, Nat.lt_asymm h, Ordering.swap]

theorem natCmp_eq {a b : Nat} (h : natCmp a b = Ordering.eq) : a = b := by
  unfold natCmp at h
  split at h
  · cases h
  · split at h
    · cases h
    · omega

theorem natCmp_lt_trans {a b c : Nat} (h1 : natCmp a b = Ordering.lt)
    (h2 : natCmp b c = Ordering.lt) : natCmp a c = Ordering.lt := by
  unfold natCmp at *
  split at h1
  · split at h2
    · rename_i hab hbc
      rw [if_pos (Nat.lt_trans hab hbc)]
    · split at h2 <;> cases h2
  · split at h1 <;> cases h1

theorem atomCmp_swap (a b : NatsortAtom) : atomCmp a b = (atomCmp b a).swap := by
  cases a <;> cases b <;> simp only [atomCmp]
  · exact clCmp_swap _ _
  · rfl
  · rfl
  · exact natCmp_swap _ _

theorem atomCmp_eq {a b : NatsortAtom} (h : atomCmp a b = Ordering.eq) :
    a = b := by
  cases a <;> cases b <;> simp only [atomCmp] at h
  · rw [clCmp_eq h]
  · cases h
  · cases h
  · rw [natCmp_eq h]

theorem atomCmp_lt_trans {a b c : NatsortAtom}
    (h1 : atomCmp a b = Ordering.lt) (h2 : atomCmp b c = Ordering.lt) :
    atomCmp a c = Ordering.lt := by
  cases a with
  | str sa =>
    cases c with
    | str sc =>
      cases b with
      | str sb => exact clCmp_lt_trans h1 h2
      | num nb => cases h2
    | num nc => rfl
  | num na =>
    cases b with
    | str sb => cases h1
    | num nb =>
      cases c with
      | str sc => cases h2
      | num nc => exact natCmp_lt_trans h1 h2

theorem keyCmp_swap (a b : List NatsortAtom) : keyCmp a b = (keyCmp b a).swap := by
  induction a generalizing b with
  | nil => cases b <;> rfl
  | cons x xs ih =>
    cases b with
    | nil => rfl
    | cons y ys =>
      simp only [keyCmp]
      rw [atomCmp_swap]
      cases hyx : atomCmp y x <;> simp [Ordering.swap, ih]

theorem keyCmp_eq {a b : List NatsortAtom} (h : keyCmp a b = Ordering.eq) :
    a = b := by
  induction a generalizing b with
  | nil => cases b with
    | nil => rfl
    | cons y ys => cases h
  | cons x xs ih =>
    cases b with
    | nil => cases h
    | cons y ys =>
      simp only [keyCmp] at h
      cases hxy : atomCmp x y <;> rw [hxy] at h
      · cases h
      · rw [atomCmp_eq hxy, ih h]
      · cases h

theorem keyCmp_lt_trans {a b c : List NatsortAtom}
    (h1 : keyCmp a b = Ordering.lt) (h2 : keyCmp b c = Ordering.lt) :
    keyCmp a c = Ordering.lt := by
  induction a generalizing b c with
  | nil =>
    cases b with
    | nil => cases h1
    | cons y ys =>
      cases c with
      | nil => cases h2
      | cons z zs => rfl
  | cons x xs ih =>
    cases b with
    | nil => cases h1
    | cons y ys =>
      cases c with
      | nil => cases h2
      | cons z zs =>
        simp only [keyCmp] at *
        cases hxy : atomCmp x y <;> rw [hxy] at h1
        · cases hyz : atomCmp y z <;> rw [hyz] at h2
          · rw [atomCmp_lt_trans hxy hyz]
          · rw [← atomCmp_eq hyz, hxy]
          · cases h2
        · cases hyz : atomCmp y z <;> rw [hyz] at h2
          · rw [atomCmp_eq hxy, hyz]
          · rw [atomCmp_eq hxy, hyz]
            exact ih h1 h2
          · cases h2
        · cases h1

theorem keyLtB_iff {a b : List NatsortAtom} :
    keyLtB a b = true ↔ keyCmp a b = Ordering.lt := by
  unfold keyLtB
  cases h : keyCmp a b <;> simp

/-- Asymmetry: two keys are never each strictly below the other. -/
theorem keyLtB_asymm {a b : List NatsortAtom} (h : keyLtB a b = true) :
    keyLtB b a = false := by
  rw [keyLtB_iff] at h
  unfold keyLtB
  rw [keyCmp_swap, h]
  rfl

/-- Negative transitivity: if `a ≤ b` and `b ≤ c` (no strict drop), then
`a ≤ c`. -/
theorem keyLtB_neg_trans {a b c : List NatsortAtom}
    (h1 : keyLtB b a = false) (h2 : keyLtB c b = false) :
    keyLtB c a = false := by
  by_contra hca'
  have hca : keyCmp c a = Ordering.lt := by
    cases h : keyLtB c a with
    | false => exact absurd h hca'
    | true => exact keyLtB_iff.mp h
  cases hcb : keyCmp c b with
  | lt =>
    rw [keyLtB_iff.mpr hcb] at h2
    cases h2
  | eq =>
    rw [keyCmp_eq hcb] at hca
    rw [keyLtB_iff.mpr hca] at h1
    cases h1
  | gt =>
    have hbc : keyCmp b c = Ordering.lt := by
      rw [keyCmp_swap, hcb]
      rfl
    have hba := keyCmp_lt_trans hbc hca
    rw [keyLtB_iff.mpr hba] at h1
    cases h1

/-! ### Correctness of the stable sort -/

theorem stableInsertBy_perm {α : Type} (keep : α → α → Bool) (x : α)
    (l : List α) : (stableInsertBy keep x l).Perm (x :: l) := by
  induction l with
  | nil => exact List.Perm.refl _
  | cons y ys ih =>
    unfold stableInsertBy
    by_cases h : keep x y = true
    · rw [if_pos h]
    · rw [if_neg h]
      exact (ih.cons y).trans (List.Perm.swap x y ys)

theorem stableSortBy_perm {α : Type} (keep : α → α → Bool) (l : List α) :
    (stableSortBy keep l).Perm l := by
  induction l with
  | nil => exact List.Perm.refl _
  | cons x xs ih =>
    exact (stableInsertBy_perm keep x (stableSortBy keep xs)).trans (ih.cons x)

theorem mem_stableInsertBy {α : Type} {keep : α → α → Bool} {x a : α}
    {l : List α} (h : a ∈ stableInsertBy keep x l) : a = x ∨ a ∈ l := by
  have hmem := (stableInsertBy_perm keep x l).mem_iff.mp h
  rcases List.mem_cons.mp hmem with h1 | h1
  · exact Or.inl h1
  · exact Or.inr h1

theorem stableInsertBy_pairwise {α : Type} {keep : α → α → Bool}
    (htot : ∀ a b, keep a b = true ∨ keep b a = true)
    (htrans : ∀ a b c, keep a b = true → keep b c = true → keep a c = true)
    {x : α} {l : List α} (hl : l.Pairwise (fun a b => keep a b = true)) :
    (stableInsertBy keep x l).Pairwise (fun a b => keep a b = true) := by
  induction l with
  | nil => simp [stableInsertBy]
  | cons y ys ih =>
    rw [List.pairwise_cons] at hl
    unfold stableInsertBy
    by_cases h : keep x y = true
    · rw [if_pos h]
      rw [List.pairwise_cons]
      constructor
      · intro a ha
        rcases List.mem_cons.mp ha with rfl | ha
        · exact h
        · exact htrans x y a h (hl.1 a ha)
      · rw [List.pairwise_cons]
        exact hl
    · rw [if_neg h]
      rw [List.pairwise_cons]
      constructor
      · intro a ha
        rcases mem_stableInsertBy ha with rfl | ha
        · rcases htot a y with hh | hh
          · exact absurd hh h
          · exact hh
        · exact hl.1 a ha
      · exact ih hl.2

theorem stableSortBy_pairwise {α : Type} {keep : α → α → Bool}
    (htot : ∀ a b, keep a b = true ∨ keep b a = true)
    (htrans : ∀ a b c, keep a b = true → keep b c = true → keep a c = true)
    (l : List α) :
    (stableSortBy keep l).Pairwise (fun a b => keep a b = true) := by
  induction l with
  | nil => simp [stableSortBy]
  | cons x xs ih =>
    exact stableInsertBy_pairwise htot htrans ih

theorem keep_true_iff {x : Bool} : (decide ¬ (x = true)) = true ↔ x = false := by
  cases x <;> simp

/-- Both directions of the natsort-key stable sort: the output is a
permutation of the input, ordered weakly by the key (ascending, or
descending for `reverse`). -/
theorem stableSort_byKey_correct {α : Type} (key : α → List NatsortAtom)
    (l : List α) :
    ((stableSortBy (fun a b => ¬ keyLtB (key b) (key a)) l).Perm l ∧
     (stableSortBy (fun a b => ¬ keyLtB (key b) (key a)) l).Pairwise
       (fun a b => keyLtB (key b) (key a) = false)) ∧
    ((stableSortBy (fun a b => ¬ keyLtB (key a) (key b)) l).Perm l ∧
     (stableSortBy (fun a b => ¬ keyLtB (key a) (key b)) l).Pairwise
       (fun a b => keyLtB (key a) (key b) = false)) := by
  constructor
  · constructor
    · exact stableSortBy_perm _ l
    · refine List.Pairwise.imp (fun h => keep_true_iff.mp h)
        (stableSortBy_pairwise ?_ ?_ l)
      · intro a b
        cases h : keyLtB (key b) (key a) with
        | false => exact Or.inl (keep_true_iff.mpr rfl)
        | true => exact Or.inr (keep_true_iff.mpr (keyLtB_asymm h))
      · intro a b c h1 h2
        exact keep_true_iff.mpr
          (keyLtB_neg_trans (keep_true_iff.mp h1) (keep_true_iff.mp h2))
  · constructor
    · exact stableSortBy_perm _ l
    · refine List.Pairwise.imp (fun h => keep_true_iff.mp h)
        (stableSortBy_pairwise ?_ ?_ l)
      · intro a b
        cases h : keyLtB (key a) (key b) with
        | false => exact Or.inl (keep_true_iff.mpr rfl)
        | true => exact Or.inr (keep_true_iff.mpr (keyLtB_asymm h))
      · intro a b c h1 h2
        exact keep_true_iff.mpr
          (keyLtB_neg_trans (keep_true_iff.mp h2) (keep_true_iff.mp h1))

/-- The comic of the claim's example, with chapter folders
`Ch1`, `Ch10`, `Ch2`. -/
def exC7namesFs : FS :=
  [ (["r"], EntryKind.dir), (["r", "m"], EntryKind.dir),
    (["r", "m", "Ch1"], EntryKind.dir), (["r", "m", "Ch10"], EntryKind.dir),
    (["r", "m", "Ch2"], EntryKind.dir) ]

def exC7namesComic : ComicState :=
  { path := ["r", "m"],
    chapters := [("Ch1", { path := ["r", "m", "Ch1"] }),
                 ("Ch10", { path := ["r", "m", "Ch10"] }),
                 ("Ch2", { path := ["r", "m", "Ch2"] })] }

/-- Claim C7 (amended): `sorted_chapters(by="name")` orders chapters by
natsort's default natural key of the display name — split into alternating
digit and non-digit runs, digit runs compared numerically and non-digit
runs lexicographically by code point (case-sensitively, with no separator
normalisation or lowercasing) — with ties stable in original order; on the
example `["Ch1","Ch10","Ch2"]` it yields `["Ch1","Ch2","Ch10"]`, and
`reverse=true` yields exactly the reverse; in general the output is a
permutation of the chapter list that is weakly ordered by that key
(descending for `reverse`). -/
theorem sorted_chapters_natural_order :
    ((exC7namesComic.sorted_chapters_by_name exC7namesFs false).map
        (ChapterState.display_name exC7namesFs) = ["Ch1", "Ch2", "Ch10"] ∧
     (exC7namesComic.sorted_chapters_by_name exC7namesFs true).map
        (ChapterState.display_name exC7namesFs) = ["Ch10", "Ch2", "Ch1"]) ∧
    (∀ fs c,
      ((ComicState.sorted_chapters_by_name fs c false).Perm
          (c.chapters.map Prod.snd) ∧
       (ComicState.sorted_chapters_by_name fs c false).Pairwise
         (fun a b => keyLtB (natsortKey (ChapterState.display_name fs b))
           (natsortKey (ChapterState.display_name fs a)) = false)) ∧
      ((ComicState.sorted_chapters_by_name fs c true).Perm
          (c.chapters.map Prod.snd) ∧
       (ComicState.sorted_chapters_by_name fs c true).Pairwise
         (fun a b => keyLtB (natsortKey (ChapterState.display_name fs a))
           (natsortKey (ChapterState.display_name fs b)) = false))) := by
  constructor
  · exact ⟨by decide, by decide⟩
  · intro fs c
    have h := stableSort_byKey_correct
      (fun ch => natsortKey (ChapterState.display_name fs ch))
      (c.chapters.map Prod.snd)
    constructor
    · exact h.1
    · exact h.2

end ComicReader
